import Mathlib

/-!
Shallow embedding of the AVC2 virtual drive library (src/lib.rs) and proofs
of its specified properties.  Bytes are natural numbers (genuine bytes are
below 256); the `u16` block index is a natural number, below 65536 where
the code's types guarantee it.
-/

namespace AvdSpec

/-- A byte, modelled as a natural number. -/
abbrev Byte := Nat

/-- One block: `struct Block { idx: u16, data: [u8; 256] }`.  The payload is a
byte list; where a claim needs it, the length-256 constraint is carried as a
hypothesis (see `WFBlock`). -/
structure Block where
  idx : Nat
  data : List Byte
deriving DecidableEq

/-- The drive: `struct Avd { blocks: Vec<Block> }`. -/
structure Avd where
  blocks : List Block
deriving DecidableEq

/-- `Avd::new`: a blank drive with no blocks. -/
def Avd.new : Avd := ⟨[]⟩

/-- `Avd::get_block`: scan the block sequence for the first block whose index
matches and return its payload (`self.blocks.iter().find(|b| b.idx == idx).map(|b| b.data)`). -/
def Avd.get_block (d : Avd) (idx : Nat) : Option (List Byte) :=
  (d.blocks.find? (fun b => b.idx == idx)).map Block.data

/-- List-level `set_block`: the source finds the position of the first block
with the given index and overwrites its payload in place (keeping the block's
own index), and otherwise pushes a new block at the end.  The recursion below
is exactly that first-match-overwrite-else-append behaviour. -/
def setBlockList (idx : Nat) (data : List Byte) : List Block → List Block
  | [] => [⟨idx, data⟩]
  | b :: bs =>
    if b.idx == idx then ⟨b.idx, data⟩ :: bs
    else b :: setBlockList idx data bs

/-- `Avd::set_block`. -/
def Avd.set_block (d : Avd) (idx : Nat) (data : List Byte) : Avd :=
  ⟨setBlockList idx data d.blocks⟩

/-- Insert a block into a list, before the first element whose index is not
smaller.  Together with `sortBlocks` this is a stable ascending sort by
index, the (unique) behaviour of Rust's stable `sort_by` with the comparator
`a.idx.cmp(&b.idx)`. -/
def insertBlock (b : Block) : List Block → List Block
  | [] => [b]
  | c :: cs => if b.idx ≤ c.idx then b :: c :: cs else c :: insertBlock b cs

/-- Stable sort of the block list by ascending index. -/
def sortBlocks : List Block → List Block
  | [] => []
  | b :: bs => insertBlock b (sortBlocks bs)

/-- `Avd::sort`: reorder the in-memory block sequence by ascending index
(Rust `sort_by` is a stable sort). -/
def Avd.sort (d : Avd) : Avd := ⟨sortBlocks d.blocks⟩

/-- The error taxonomy `enum AvdError`.  The payload of the host I/O error
is not modelled. -/
inductive AvdError where
  | fsError
  | badHeader (b0 b1 b2 b3 : Byte)
  | malformedArchive
deriving DecidableEq

/-- `u16::to_be_bytes`: big-endian byte pair of a 16-bit value. -/
def u16_to_be_bytes (n : Nat) : List Byte := [n / 256 % 256, n % 256]

/-- One loop iteration of `save_archive`: the block's big-endian index bytes
followed by its payload verbatim. -/
def encodeBlock (b : Block) : List Byte := u16_to_be_bytes b.idx ++ b.data

/-- `Avd::save_archive`: the 4-byte magic header followed by, for each block
in sequence order, the big-endian index bytes and the payload verbatim. -/
def Avd.save_archive (d : Avd) : List Byte :=
  [0x41, 0x56, 0x44, 0x00] ++ d.blocks.flatMap encodeBlock

/-- Outcome of decoding, with an explicit case for a Rust panic (an
out-of-bounds slice). -/
inductive LoadResult where
  | panicked
  | err (e : AvdError)
  | ok (blocks : List Block)
deriving DecidableEq

/-- The record-parsing loop of `load_archive`: while at least 258 bytes
remain, split off a 258-byte record, read its first two bytes as a big-endian
index (`u16::from_be_bytes`) and the remaining 256 as the payload. -/
def parseBlocks : List Byte → List Block
  | b0 :: b1 :: rest =>
    if rest.length < 256 then []
    else ⟨b0 * 256 + b1, rest.take 256⟩ :: parseBlocks (rest.drop 256)
  | _ => []
termination_by l => l.length
decreasing_by
  simp only [List.length_drop, List.length_cons]
  omega

/-- `Avd::load_archive`.  The source starts with `let header = &archive[..4]`,
which on an input shorter than 4 bytes is an out-of-bounds slice and panics;
that case is `LoadResult.panicked`.  Otherwise the header is compared with
the magic bytes, the data-segment length is checked modulo 258, and the
records are parsed in file order. -/
def load_archive (archive : List Byte) : LoadResult :=
  match archive with
  | b0 :: b1 :: b2 :: b3 :: rest =>
    if b0 = 0x41 ∧ b1 = 0x56 ∧ b2 = 0x44 ∧ b3 = 0x00 then
      if rest.length % 258 ≠ 0 then .err .malformedArchive
      else .ok (parseBlocks rest)
    else .err (.badHeader b0 b1 b2 b3)
  | _ => .panicked

/-- `Avd::load`: the host read is modelled as `Option (List Byte)` (`none`
is a host I/O failure).  On a read failure or a decode failure the drive is
returned unchanged together with the error; on success the block sequence is
replaced by the decoded one. -/
def Avd.load (d : Avd) (file : Option (List Byte)) : Avd × LoadResult :=
  match file with
  | none => (d, .err .fsError)
  | some archive =>
    match load_archive archive with
    | .ok bs => (⟨bs⟩, .ok bs)
    | .err e => (d, .err e)
    | .panicked => (d, .panicked)

/-- The constraints the Rust types put on a block: a `u16` index and a
256-byte payload. -/
def WFBlock (b : Block) : Prop := b.idx < 65536 ∧ b.data.length = 256

/-- Drives reachable from `Avd::new` by `set_block` and `sort` calls. -/
inductive Reachable : Avd → Prop where
  | new : Reachable Avd.new
  | set (i : Nat) (x : List Byte) {d : Avd} :
      Reachable d → Reachable (d.set_block i x)
  | sorted {d : Avd} : Reachable d → Reachable d.sort

/-! ### Lemmas about `set_block` -/

/-- After setting index `i`, looking up `i` finds the new payload. -/
lemma find?_setBlockList (i : Nat) (x : List Byte) (l : List Block) :
    ((setBlockList i x l).find? (fun b => b.idx == i)).map Block.data = some x := by
  induction l with
  | nil => simp [setBlockList]
  | cons b bs ih =>
    by_cases hb : b.idx = i
    · simp [setBlockList, hb]
    · simp only [setBlockList, beq_iff_eq, hb, if_false]
      rw [List.find?_cons_of_neg]
      · exact ih
      · simp [hb]

/-- The index list after `set_block`: unchanged when the index was present,
otherwise the index is appended at the end. -/
lemma map_idx_setBlockList (i : Nat) (x : List Byte) (l : List Block) :
    (setBlockList i x l).map Block.idx =
      if i ∈ l.map Block.idx then l.map Block.idx
      else l.map Block.idx ++ [i] := by
  induction l with
  | nil => simp [setBlockList]
  | cons b bs ih =>
    by_cases hb : b.idx = i
    · simp [setBlockList, hb]
    · simp only [setBlockList, beq_iff_eq, hb, if_false, List.map_cons, ih,
        List.mem_cons]
      by_cases hm : i ∈ bs.map Block.idx
      · simp [hm, hb, Ne.symm hb]
      · simp [hm, hb, Ne.symm hb]

/-- `set_block` keeps the length when the index is already present. -/
lemma length_setBlockList_of_mem (i : Nat) (x : List Byte) (l : List Block)
    (h : i ∈ l.map Block.idx) :
    (setBlockList i x l).length = l.length := by
  have := map_idx_setBlockList i x l
  rw [if_pos h] at this
  have h' := congrArg List.length this
  simpa using h'

/-- The index set by `set_block` is present afterwards. -/
lemma mem_map_idx_setBlockList (i : Nat) (x : List Byte) (l : List Block) :
    i ∈ (setBlockList i x l).map Block.idx := by
  rw [map_idx_setBlockList]
  by_cases hm : i ∈ l.map Block.idx <;> simp [hm]

/-- Claim helper: `get_block` right after `set_block` on the same index. -/
lemma get_block_set_block (d : Avd) (i : Nat) (x : List Byte) :
    (d.set_block i x).get_block i = some x :=
  find?_setBlockList i x d.blocks

/-! ### Lemmas about `sort` -/

/-- `insertBlock` is a permutation-preserving insertion. -/
lemma perm_insertBlock (b : Block) (l : List Block) :
    (insertBlock b l).Perm (b :: l) := by
  induction l with
  | nil => simp [insertBlock]
  | cons c cs ih =>
    by_cases hle : b.idx ≤ c.idx
    · simp [insertBlock, hle]
    · simp only [insertBlock, hle, if_false]
      exact (ih.cons c).trans (List.Perm.swap b c cs)

/-- Sorting permutes the block list. -/
lemma perm_sortBlocks (l : List Block) : (sortBlocks l).Perm l := by
  induction l with
  | nil => simp [sortBlocks]
  | cons b bs ih =>
    exact (perm_insertBlock b (sortBlocks bs)).trans (ih.cons b)

/-- Stability of the insertion step, seen through an index filter: inserting
`b` leaves the sub-sequence of blocks with any fixed index `i` unchanged,
except that a `b` with that index lands at its front (every block `b` skips
over has a strictly smaller index, hence never index `i = b.idx`). -/
lemma filter_insertBlock (b : Block) (l : List Block) (i : Nat) :
    (insertBlock b l).filter (fun c => c.idx == i) =
      if b.idx = i then b :: l.filter (fun c => c.idx == i)
      else l.filter (fun c => c.idx == i) := by
  induction l with
  | nil =>
    by_cases hb : b.idx = i <;> simp [insertBlock, hb]
  | cons c cs ih =>
    by_cases hle : b.idx ≤ c.idx
    · simp only [insertBlock, if_pos hle]
      by_cases hb : b.idx = i <;> simp [List.filter_cons, hb]
    · have hlt : c.idx < b.idx := by omega
      simp only [insertBlock, if_neg hle]
      by_cases hb : b.idx = i
      · have hc : ¬ c.idx = i := by omega
        simp [List.filter_cons, hb, hc, ih]
      · by_cases hc : c.idx = i <;> simp [List.filter_cons, hb, hc, ih]

/-- Stability of the sort, seen through an index filter: the sub-sequence of
blocks with any fixed index is unchanged. -/
lemma filter_sortBlocks (l : List Block) (i : Nat) :
    (sortBlocks l).filter (fun c => c.idx == i) =
      l.filter (fun c => c.idx == i) := by
  induction l with
  | nil => simp [sortBlocks]
  | cons b bs ih =>
    by_cases hb : b.idx = i <;>
      simp [sortBlocks, filter_insertBlock, hb, ih]

/-- The first match of a scan is the head of the filtered list. -/
lemma find?_eq_head?_filter (p : Block → Bool) (l : List Block) :
    l.find? p = (l.filter p).head? := by
  induction l with
  | nil => simp
  | cons b bs ih =>
    cases hb : p b
    · rw [List.find?_cons_of_neg _ (by simp [hb]), List.filter_cons,
        if_neg (by simp [hb])]
      exact ih
    · rw [List.find?_cons_of_pos _ hb, List.filter_cons, if_pos (by simp [hb])]
      simp

/-! ### Lemmas about the archive codec -/

/-- Each record of a well-typed block is exactly 258 bytes. -/
lemma length_encodeBlock (b : Block) (h : b.data.length = 256) :
    (encodeBlock b).length = 258 := by
  simp [encodeBlock, u16_to_be_bytes, h]

/-- The encoded data segment of a well-typed block list is `258 * N` bytes. -/
lemma length_flatMap_encodeBlock (l : List Block)
    (h : ∀ b ∈ l, WFBlock b) :
    (l.flatMap encodeBlock).length = 258 * l.length := by
  induction l with
  | nil => simp
  | cons b bs ih =>
    have hb : WFBlock b := h b (List.mem_cons_self b bs)
    have hbs : ∀ c ∈ bs, WFBlock c := fun c hc => h c (List.mem_cons_of_mem b hc)
    simp only [List.flatMap_cons, List.length_append, ih hbs,
      length_encodeBlock b hb.2, List.length_cons]
    ring

/-- Parsing the encoding of a well-typed block list recovers the list
exactly (same blocks, same order). -/
lemma parseBlocks_flatMap_encodeBlock (l : List Block)
    (h : ∀ b ∈ l, WFBlock b) :
    parseBlocks (l.flatMap encodeBlock) = l := by
  induction l with
  | nil => simp [parseBlocks]
  | cons b bs ih =>
    have hb : WFBlock b := h b (List.mem_cons_self b bs)
    have hbs : ∀ c ∈ bs, WFBlock c := fun c hc => h c (List.mem_cons_of_mem b hc)
    have hlen : b.data.length = 256 := hb.2
    have hidx : b.idx < 65536 := hb.1
    simp only [List.flatMap_cons, encodeBlock, u16_to_be_bytes,
      List.cons_append, List.nil_append]
    rw [parseBlocks]
    have hrestlen : (b.data ++ bs.flatMap encodeBlock).length =
        256 + (bs.flatMap encodeBlock).length := by simp [hlen]
    rw [if_neg (by omega)]
    have htake : (b.data ++ bs.flatMap encodeBlock).take 256 = b.data := by
      rw [← hlen]
      exact List.take_left b.data _
    have hdrop : (b.data ++ bs.flatMap encodeBlock).drop 256 =
        bs.flatMap encodeBlock := by
      rw [← hlen]
      exact List.drop_left b.data _
    rw [htake, hdrop, ih hbs]
    have : b.idx / 256 % 256 * 256 + b.idx % 256 = b.idx := by omega
    rw [this]

/-- Re-encoding the blocks parsed from a record-aligned byte segment
reproduces the segment exactly (induction fuel on the length). -/
lemma flatMap_encodeBlock_parseBlocks_aux (n : Nat) :
    ∀ data : List Byte, data.length ≤ n → data.length % 258 = 0 →
      (∀ x ∈ data, x < 256) →
      (parseBlocks data).flatMap encodeBlock = data := by
  induction n with
  | zero =>
    intro data hn _ _
    have : data = [] := List.eq_nil_of_length_eq_zero (by omega)
    subst this
    simp [parseBlocks]
  | succ n ih =>
    intro data hn hmod hbytes
    obtain _ | ⟨b0, _ | ⟨b1, rest⟩⟩ := data
    · simp [parseBlocks]
    · simp only [List.length_cons, List.length_nil] at hmod
      omega
    · have hlen : ¬ rest.length < 256 := by
        intro hlt
        simp only [List.length_cons] at hmod
        omega
      rw [parseBlocks, if_neg hlen]
      have hb0 : b0 < 256 := hbytes b0 (by simp)
      have hb1 : b1 < 256 := hbytes b1 (by simp)
      have henc : encodeBlock ⟨b0 * 256 + b1, rest.take 256⟩ =
          b0 :: b1 :: rest.take 256 := by
        simp only [encodeBlock, u16_to_be_bytes]
        have h0 : (b0 * 256 + b1) / 256 % 256 = b0 := by
          rw [Nat.mul_comm, Nat.mul_add_div (by norm_num),
            Nat.div_eq_of_lt hb1, Nat.add_zero, Nat.mod_eq_of_lt hb0]
        have h1 : (b0 * 256 + b1) % 256 = b1 := by
          rw [Nat.mul_comm b0 256, Nat.mul_add_mod, Nat.mod_eq_of_lt hb1]
        rw [h0, h1]
        rfl
      rw [List.flatMap_cons, henc]
      have hdroplen : (rest.drop 256).length ≤ n := by
        simp only [List.length_cons] at hn
        simp only [List.length_drop]
        omega
      have hdropmod : (rest.drop 256).length % 258 = 0 := by
        simp only [List.length_cons] at hmod
        simp only [List.length_drop]
        omega
      have hdropbytes : ∀ x ∈ rest.drop 256, x < 256 := fun x hx =>
        hbytes x (by
          simp only [List.mem_cons]
          exact Or.inr (Or.inr (List.mem_of_mem_drop hx)))
      rw [ih (rest.drop 256) hdroplen hdropmod hdropbytes]
      simp [List.take_append_drop]

/-! ### Claim theorems -/

/-- Claim C1 (refuted by the code, a code bug): the spec requires every
input shorter than 4 bytes to decode to a `BadHeader` error without a panic,
but `load_archive` begins with the slice `&archive[..4]`, which on such
inputs is an out-of-bounds access and panics.  This theorem evaluates the
embedded code at every length-deficient shape, the empty input included. -/
theorem load_archive_short_input_panics :
    load_archive [] = LoadResult.panicked ∧
    load_archive [0x41] = LoadResult.panicked ∧
    load_archive [0x41, 0x56] = LoadResult.panicked ∧
    load_archive [0x41, 0x56, 0x44] = LoadResult.panicked :=
  ⟨rfl, rfl, rfl, rfl⟩

/-- Claim C2: for a drive with well-typed blocks and pairwise-distinct
indices, decoding the serialized archive succeeds and yields a block list
with the same index-to-payload mapping (observed through `get_block`). -/
theorem deserialize_serialize_roundtrip (d : Avd)
    (hwf : ∀ b ∈ d.blocks, WFBlock b)
    (hnodup : (d.blocks.map Block.idx).Nodup) :
    ∃ bs, load_archive d.save_archive = LoadResult.ok bs ∧
      ∀ i, (Avd.mk bs).get_block i = d.get_block i := by
  refine ⟨d.blocks, ?_, fun i => rfl⟩
  show load_archive
      (0x41 :: 0x56 :: 0x44 :: 0x00 :: d.blocks.flatMap encodeBlock) = _
  simp only [load_archive]
  rw [if_pos (by norm_num),
    if_neg (by rw [length_flatMap_encodeBlock d.blocks hwf]; omega),
    parseBlocks_flatMap_encodeBlock d.blocks hwf]

theorem deserialize_serialize_roundtrip_witness :
    ∃ bs, load_archive Avd.new.save_archive = LoadResult.ok bs ∧
      ∀ i, (Avd.mk bs).get_block i = Avd.new.get_block i :=
  deserialize_serialize_roundtrip Avd.new (by simp [Avd.new]) (by simp [Avd.new])

/-- Claim C3: if `load` fails (host I/O failure or decode error) the block
sequence is exactly what it was before the call; on success it is fully
replaced by the decoded sequence. -/
theorem load_failure_preserves_blocks (d : Avd) (file : Option (List Byte)) :
    (∀ e, (d.load file).2 = LoadResult.err e → (d.load file).1 = d) ∧
    (∀ bs, (d.load file).2 = LoadResult.ok bs → (d.load file).1 = ⟨bs⟩ ∧
      ∃ a, file = some a ∧ load_archive a = LoadResult.ok bs) := by
  cases file with
  | none => simp [Avd.load]
  | some a =>
    cases h : load_archive a with
    | panicked => simp [Avd.load, h]
    | err e => simp [Avd.load, h]
    | ok bs => simp [Avd.load, h]

theorem load_failure_preserves_blocks_witness :
    (Avd.new.load none).1 = Avd.new :=
  (load_failure_preserves_blocks Avd.new none).1 AvdError.fsError rfl

/-- Claim C4: every drive reachable from `new` by `set_block` and `sort`
calls has pairwise-distinct block indices; moreover `set_block` on an index
already present leaves the index sequence unchanged (overwrite in place,
never an appended duplicate). -/
theorem reachable_nodup_idx (d : Avd) (hr : Reachable d) :
    (d.blocks.map Block.idx).Nodup ∧
    ∀ i x, i ∈ d.blocks.map Block.idx →
      (d.set_block i x).blocks.map Block.idx = d.blocks.map Block.idx := by
  constructor
  · induction hr with
    | new => simp [Avd.new]
    | set i x hd ih =>
      rename_i d
      simp only [Avd.set_block, map_idx_setBlockList]
      by_cases hm : i ∈ d.blocks.map Block.idx
      · rw [if_pos hm]; exact ih
      · rw [if_neg hm]
        simp [List.nodup_append, ih, hm]
    | sorted hd ih =>
      exact (List.Perm.map Block.idx
        (perm_sortBlocks _)).nodup_iff.mpr ih
  · intro i x hm
    simp only [Avd.set_block, map_idx_setBlockList, if_pos hm]

theorem reachable_nodup_idx_witness :
    ((Avd.new.set_block 5 (List.replicate 256 0)).blocks.map Block.idx).Nodup :=
  (reachable_nodup_idx _
    (Reachable.set 5 (List.replicate 256 0) Reachable.new)).1

/-- Claim C5 (last-write-wins): `set_block i a` then `set_block i b` with
`a ≠ b` makes `get_block i` return `some b`. -/
theorem last_write_wins (d : Avd) (i : Nat) (a b : List Byte) (hne : a ≠ b) :
    ((d.set_block i a).set_block i b).get_block i = some b :=
  get_block_set_block (d.set_block i a) i b

theorem last_write_wins_witness :
    ((Avd.new.set_block 7 (List.replicate 256 0)).set_block 7
      (List.replicate 256 1)).get_block 7 = some (List.replicate 256 1) :=
  last_write_wins Avd.new 7 (List.replicate 256 0) (List.replicate 256 1)
    (by decide)

/-- Claim C6 (overwrite idempotence): `set_block i x` twice leaves
`get_block i = some x` and the block count of the second call equals the
block count after the first. -/
theorem set_block_idempotent (d : Avd) (i : Nat) (x : List Byte) :
    ((d.set_block i x).set_block i x).get_block i = some x ∧
    ((d.set_block i x).set_block i x).blocks.length =
      (d.set_block i x).blocks.length :=
  ⟨get_block_set_block (d.set_block i x) i x,
   length_setBlockList_of_mem i x (setBlockList i x d.blocks)
     (mem_map_idx_setBlockList i x d.blocks)⟩

/-- Claim C7 (sort is observation-preserving): for every drive and every
index, `get_block` after `sort` equals `get_block` before, with no
uniqueness assumption (the Rust sort is stable, so even duplicate indices
keep their first occurrence first). -/
theorem sort_preserves_get_block (d : Avd) (i : Nat) :
    d.sort.get_block i = d.get_block i := by
  simp only [Avd.sort, Avd.get_block]
  rw [find?_eq_head?_filter, find?_eq_head?_filter, filter_sortBlocks]

/-- Claim C8: an input of length at least 4 whose first four bytes are not
the magic header decodes to `BadHeader` carrying those four bytes. -/
theorem bad_magic_bad_header (b0 b1 b2 b3 : Byte) (rest : List Byte)
    (h : ¬(b0 = 0x41 ∧ b1 = 0x56 ∧ b2 = 0x44 ∧ b3 = 0x00)) :
    load_archive (b0 :: b1 :: b2 :: b3 :: rest) =
      LoadResult.err (AvdError.badHeader b0 b1 b2 b3) := by
  simp only [load_archive]
  rw [if_neg h]

theorem bad_magic_bad_header_witness :
    load_archive [1, 2, 3, 4] = LoadResult.err (AvdError.badHeader 1 2 3 4) :=
  bad_magic_bad_header 1 2 3 4 [] (by decide)

/-- Claim C9: an input starting with the magic header whose data-segment
length is not a multiple of 258 decodes to `MalformedArchive`. -/
theorem misaligned_length_malformed (rest : List Byte)
    (h : rest.length % 258 ≠ 0) :
    load_archive (0x41 :: 0x56 :: 0x44 :: 0x00 :: rest) =
      LoadResult.err AvdError.malformedArchive := by
  simp only [load_archive]
  rw [if_pos (by norm_num), if_pos h]

theorem misaligned_length_malformed_witness :
    load_archive [0x41, 0x56, 0x44, 0x00, 0] =
      LoadResult.err AvdError.malformedArchive :=
  misaligned_length_malformed [0] (by decide)

/-- Claim C10: decoding a well-formed archive (magic header, data segment a
multiple of 258 bytes, genuine bytes) and re-serializing the resulting drive
reproduces the archive byte for byte. -/
theorem serialize_deserialize_identity (rest : List Byte)
    (hmod : rest.length % 258 = 0) (hbytes : ∀ x ∈ rest, x < 256) :
    ∃ bs, load_archive (0x41 :: 0x56 :: 0x44 :: 0x00 :: rest) =
        LoadResult.ok bs ∧
      (Avd.mk bs).save_archive = 0x41 :: 0x56 :: 0x44 :: 0x00 :: rest := by
  refine ⟨parseBlocks rest, ?_, ?_⟩
  · simp only [load_archive]
    rw [if_pos (by norm_num), if_neg (by omega)]
  · show [0x41, 0x56, 0x44, 0x00] ++ (parseBlocks rest).flatMap encodeBlock = _
    rw [flatMap_encodeBlock_parseBlocks_aux rest.length rest le_rfl hmod hbytes]
    rfl

theorem serialize_deserialize_identity_witness :
    ∃ bs, load_archive [0x41, 0x56, 0x44, 0x00] = LoadResult.ok bs ∧
      (Avd.mk bs).save_archive = [0x41, 0x56, 0x44, 0x00] :=
  serialize_deserialize_identity [] (by decide) (by simp)

end AvdSpec
